import Mathlib

/-!
Verification development for the BnB (branch-and-bound) coin-selection
visualizer repository.

The search engine (`src/services/bnbAlgorithm.ts`) is embedded as pure Lean
functions: the mutable variables of `generateScenario` (`steps`,
`candidates`, `stepCounter`, `foundAnySolution`, `bestSolutionIndices`,
`bestSolutionPath`) become an explicit `SearchState` threaded through the
recursion.  JS numbers are embedded as `Int` (all arithmetic in the source
is exact integer arithmetic on the intended inputs).  The human-readable
`description` strings and the `id` strings of UTXOs are display-only and
carry no algorithmic content; they are omitted from the embedding.

The trace-replay engine (`TreeGraph` in `src/App.tsx`) is embedded as a
fold over the enumerated step prefix, with the JS `Map` keyed by the
path-id string modelled as an insertion-ordered association list keyed by
the path itself (`getPathId` is injective, so the key sets are in
bijection).  The x/y layout coordinates and the display-only `type` field
of a tree node are rendering data and are omitted; status updates in the
source never read them.
-/

namespace BnB

/-- Step kinds, from `StepType` in `src/types.ts`. -/
inductive StepType where
  | START
  | INCLUDE
  | EXCLUDE
  | PRUNE_VAL
  | PRUNE_SUM
  | SOLUTION
  | BACKTRACK
  | COMPLETE
deriving DecidableEq, Repr

/-- One trace event, from `AlgorithmStep` in `src/types.ts`
(the display-only `description` string is omitted). -/
structure AlgorithmStep where
  stepId : Nat
  type : StepType
  depth : Nat
  /-- The source stores `startIndex - 1` here for `SOLUTION` steps, which
  can be `-1`, so this field is an `Int`. -/
  utxoIndex : Int
  currentSelection : List Nat
  currentSum : Int
  remainingValue : Int
  path : List Bool
deriving DecidableEq, Repr

/-- From `SolutionCandidate` in `src/types.ts`. -/
structure SolutionCandidate where
  path : List Bool
  stepIndex : Nat
  value : Int
deriving DecidableEq, Repr

inductive Outcome where
  | success
  | failure
deriving DecidableEq, Repr

/-- From `Scenario` in `src/types.ts`; `utxos` keeps only the values
(the `id` strings are derived from the index and display-only). -/
structure Scenario where
  utxos : List Int
  target : Int
  steps : List AlgorithmStep
  outcome : Outcome
  bestSolutionIndices : Option (List Nat)
  bestSolutionPath : Option (List Bool)
  candidates : List SolutionCandidate
deriving DecidableEq, Repr

/-- The mutable locals of `generateScenario`, threaded explicitly. -/
structure SearchState where
  steps : List AlgorithmStep
  candidates : List SolutionCandidate
  stepCounter : Nat
  foundAnySolution : Bool
  bestSolutionIndices : Option (List Nat)
  bestSolutionPath : Option (List Bool)
deriving DecidableEq, Repr

/-- Insert into a descending-sorted list (before the first strictly
smaller element). -/
def insertDesc (x : Int) : List Int → List Int
  | [] => [x]
  | y :: ys => if y < x then x :: y :: ys else y :: insertDesc x ys

/-- Models the descending sort `utxoValues.sort((a, b) => b - a)`.
Ties carry equal values, so any stable/unstable descending sort yields the
same value list. -/
def sortDesc : List Int → List Int
  | [] => []
  | x :: xs => insertDesc x (sortDesc xs)

/-- `getRemainingSum` from `src/services/bnbAlgorithm.ts`: the sum of
`utxos[i].value` for `i` from `startIndex` to the end. -/
def getRemainingSum (utxos : List Int) (startIndex : Nat) : Int :=
  (utxos.drop startIndex).sum

/-- `recordStep` from `src/services/bnbAlgorithm.ts`: appends one step and
bumps the counter.  `remainingValue` is `getRemainingSum(idx + 1)`; `idx`
is at least `-1` at every call site, so `(idx + 1).toNat` is exact. -/
def recordStep (utxos : List Int) (st : SearchState) (ty : StepType)
    (depth : Nat) (idx : Int) (selection : List Nat) (sum : Int)
    (path : List Bool) : SearchState :=
  { st with
    steps := st.steps ++ [{
      stepId := st.stepCounter
      type := ty
      depth := depth
      utxoIndex := idx
      currentSelection := selection
      currentSum := sum
      remainingValue := getRemainingSum utxos (idx + 1).toNat
      path := path }]
    stepCounter := st.stepCounter + 1 }

/-- `backtrack` from `src/services/bnbAlgorithm.ts`.  The recursion in the
source decreases `utxos.length - startIndex`; here `fuel` makes that
measure structural so the definition evaluates by kernel reduction.  Every
caller supplies `fuel ≥ utxos.length - startIndex`, which makes the
`fuel = 0` branch unreachable (the branching case requires
`startIndex < utxos.length`, hence `fuel ≥ 1`). -/
def backtrack (utxos : List Int) (target dustThreshold : Int) (fuel : Nat)
    (depth : Nat) (currentSelection : List Nat) (currentSum : Int)
    (startIndex : Nat) (path : List Bool) (st : SearchState) : SearchState :=
  -- Check for solution
  if currentSum = target ∨ (currentSum > target ∧ currentSum ≤ target + dustThreshold) then
    let st := { st with
      foundAnySolution := true
      bestSolutionIndices := some currentSelection
      bestSolutionPath := some path }
    -- Record this candidate; `stepIndex` matches the id of the step
    -- about to be recorded.
    let st := { st with
      candidates := st.candidates ++ [{ path := path, stepIndex := st.stepCounter, value := currentSum }] }
    recordStep utxos st .SOLUTION depth ((startIndex : Int) - 1) currentSelection currentSum path
  -- If we've run out of UTXOs
  else if utxos.length ≤ startIndex then
    recordStep utxos st .BACKTRACK depth (startIndex : Int) currentSelection currentSum path
  else
    match fuel with
    | 0 => st
    | fuel + 1 =>
      let currentUtxo := utxos.getD startIndex 0
      let remaining := getRemainingSum utxos startIndex
      -- Pruning Condition 1: even taking everything remaining cannot reach target
      if currentSum + remaining < target then
        recordStep utxos st .PRUNE_SUM depth (startIndex : Int) currentSelection currentSum path
      -- Pruning Condition 2: current sum already exceeds target + range
      else if currentSum > target + dustThreshold then
        recordStep utxos st .PRUNE_VAL depth (startIndex : Int) currentSelection currentSum path
      else
        -- BRANCH LEFT (INCLUDE)
        let st := recordStep utxos st .INCLUDE depth (startIndex : Int)
          (currentSelection ++ [startIndex]) (currentSum + currentUtxo) (path ++ [true])
        let st := backtrack utxos target dustThreshold fuel (depth + 1)
          (currentSelection ++ [startIndex]) (currentSum + currentUtxo) (startIndex + 1)
          (path ++ [true]) st
        -- BRANCH RIGHT (EXCLUDE)
        let st := recordStep utxos st .EXCLUDE depth (startIndex : Int)
          currentSelection currentSum (path ++ [false])
        backtrack utxos target dustThreshold fuel (depth + 1)
          currentSelection currentSum (startIndex + 1) (path ++ [false]) st

/-- `generateScenario` from `src/services/bnbAlgorithm.ts`.  In the
source `dustThreshold` is an optional parameter defaulting to `0`; here it
is always passed explicitly. -/
def generateScenario (utxoValues : List Int) (target : Int)
    (dustThreshold : Int) : Scenario :=
  let utxos := sortDesc utxoValues
  let st0 : SearchState :=
    { steps := [], candidates := [], stepCounter := 0, foundAnySolution := false
      bestSolutionIndices := none, bestSolutionPath := none }
  -- Start the recursion (`utxos.length` is enough fuel from `startIndex = 0`).
  let st := backtrack utxos target dustThreshold utxos.length 0 [] 0 0 [] st0
  -- Add COMPLETE step at the very end
  let st := recordStep utxos st .COMPLETE 0 0 [] 0 []
  { utxos := utxos
    target := target
    steps := st.steps
    outcome := if st.foundAnySolution then .success else .failure
    bestSolutionIndices := st.bestSolutionIndices
    bestSolutionPath := st.bestSolutionPath
    candidates := st.candidates }

/-- The step stored at position `i` of a scenario's trace. -/
def stepAt (sc : Scenario) (i : Nat) : Option AlgorithmStep :=
  sc.steps[i]?

/-- The kind of the step at position `i` of a scenario's trace. -/
def stepTypeAt (sc : Scenario) (i : Nat) : Option StepType :=
  (sc.steps[i]?).map AlgorithmStep.type

/-- The path of the step at position `i` of a scenario's trace. -/
def stepPathAt (sc : Scenario) (i : Nat) : Option (List Bool) :=
  (sc.steps[i]?).map AlgorithmStep.path

/-- Whether a step is a `SOLUTION` step at path `[true, true, false]`. -/
def solutionAtTTF (s : AlgorithmStep) : Bool :=
  s.type == .SOLUTION && s.path == [true, true, false]

end BnB

namespace BnB

/-- The sum of the values selected by a path: value `k` is added exactly
when position `k` of the path holds `true`. -/
def pathSum : List Int → List Bool → Int
  | _, [] => 0
  | [], _ :: _ => 0
  | v :: vs, b :: bs => (if b then v else 0) + pathSum vs bs

/-- The positions holding `true`, offset by `k`. -/
def trueIndicesFrom (k : Nat) : List Bool → List Nat
  | [] => []
  | b :: bs => if b then k :: trueIndicesFrom (k + 1) bs else trueIndicesFrom (k + 1) bs

/-- The positions of a path holding `true`, in increasing order: the
selection of value indices a path denotes. -/
def trueIndices (p : List Bool) : List Nat :=
  trueIndicesFrom 0 p

theorem pathSum_append (vs : List Int) (p : List Bool) (b : Bool) :
    pathSum vs (p ++ [b]) = pathSum vs p + (if b then vs.getD p.length 0 else 0) := by
  induction vs generalizing p with
  | nil => cases p <;> simp [pathSum]
  | cons v vs ih =>
    cases p with
    | nil => simp [pathSum]
    | cons c p' =>
      simp only [List.cons_append, pathSum, List.append_eq, ih p', List.length_cons,
        List.getD_cons_succ]
      ring

theorem trueIndicesFrom_append (k : Nat) (p : List Bool) (b : Bool) :
    trueIndicesFrom k (p ++ [b]) =
      trueIndicesFrom k p ++ (if b then [k + p.length] else []) := by
  induction p generalizing k with
  | nil => cases b <;> simp [trueIndicesFrom]
  | cons c p' ih =>
    have h : k + 1 + p'.length = k + (p'.length + 1) := by omega
    cases c <;> simp [trueIndicesFrom, ih, h]

/-- The per-step invariants of the search: solution steps are within
tolerance, every step's sum matches its path, branch steps are recorded
only when the prune conditions fail at the branching node, and the
recursion never emits `COMPLETE`. -/
structure StepOK (utxos : List Int) (target tol : Int) (s : AlgorithmStep) : Prop where
  solution_sum : s.type = .SOLUTION →
    s.currentSum = target ∨ (target < s.currentSum ∧ s.currentSum ≤ target + tol)
  sum_eq : s.currentSum = pathSum utxos s.path
  include_ok : s.type = .INCLUDE →
    ∃ i : Nat, s.utxoIndex = (i : Int) ∧ i < utxos.length ∧ s.path.length = i + 1 ∧
      ¬(s.currentSum - utxos.getD i 0 + getRemainingSum utxos i < target) ∧
      ¬(s.currentSum - utxos.getD i 0 > target + tol)
  exclude_ok : s.type = .EXCLUDE →
    ∃ i : Nat, s.utxoIndex = (i : Int) ∧ i < utxos.length ∧ s.path.length = i + 1 ∧
      ¬(s.currentSum + getRemainingSum utxos i < target) ∧
      ¬(s.currentSum > target + tol)
  not_complete : s.type ≠ .COMPLETE

/-- The state invariants of the search: the step counter tracks the trace
length, every recorded step satisfies `StepOK`, the success flag mirrors
candidate non-emptiness, the best solution mirrors the last candidate, and
every candidate points at its `SOLUTION` step. -/
structure StateOK (utxos : List Int) (target tol : Int) (st : SearchState) : Prop where
  counter_eq : st.stepCounter = st.steps.length
  steps_ok : ∀ s ∈ st.steps, StepOK utxos target tol s
  found_iff : st.foundAnySolution = true ↔ st.candidates ≠ []
  best_path : st.bestSolutionPath = (st.candidates.getLast?).map SolutionCandidate.path
  best_idx : st.bestSolutionIndices =
    (st.candidates.getLast?).map (fun c => trueIndices c.path)
  cand_ok : ∀ c ∈ st.candidates, ∃ s, st.steps[c.stepIndex]? = some s ∧
    s.stepId = c.stepIndex ∧ s.type = .SOLUTION ∧ s.path = c.path ∧ s.currentSum = c.value

theorem StateOK.record {utxos : List Int} {target tol : Int} {st : SearchState}
    (h : StateOK utxos target tol st) {ty : StepType} {depth : Nat} {idx : Int}
    {sel : List Nat} {sum : Int} {path : List Bool}
    (hs : StepOK utxos target tol
      { stepId := st.stepCounter, type := ty, depth := depth, utxoIndex := idx
        currentSelection := sel, currentSum := sum
        remainingValue := getRemainingSum utxos (idx + 1).toNat, path := path }) :
    StateOK utxos target tol (recordStep utxos st ty depth idx sel sum path) := by
  constructor
  · simp [recordStep, h.counter_eq]
  · intro s hmem
    simp only [recordStep, List.mem_append, List.mem_singleton] at hmem
    rcases hmem with hmem | rfl
    · exact h.steps_ok s hmem
    · exact hs
  · simpa [recordStep] using h.found_iff
  · simpa [recordStep] using h.best_path
  · simpa [recordStep] using h.best_idx
  · intro c hc
    simp only [recordStep] at hc
    obtain ⟨s, hget, hrest⟩ := h.cand_ok c hc
    refine ⟨s, ?_, hrest⟩
    have hlt : c.stepIndex < st.steps.length := by
      by_contra hge
      rw [List.getElem?_eq_none (by omega)] at hget
      exact Option.noConfusion hget
    simpa [recordStep, List.getElem?_append_left hlt] using hget

/-- The SOLUTION branch of `backtrack` preserves the state invariant:
the success flag, the best solution, the candidate list and the recorded
`SOLUTION` step are all updated coherently. -/
theorem StateOK.solution {utxos : List Int} {target tol : Int} {st : SearchState}
    (h : StateOK utxos target tol st) {depth : Nat} {idx : Int} {sel : List Nat}
    {sum : Int} {path : List Bool}
    (hcond : sum = target ∨ (sum > target ∧ sum ≤ target + tol))
    (hsum : sum = pathSum utxos path) (hsel : sel = trueIndices path) :
    StateOK utxos target tol (recordStep utxos
      { st with
        foundAnySolution := true
        bestSolutionIndices := some sel
        bestSolutionPath := some path
        candidates := st.candidates ++
          [{ path := path, stepIndex := st.stepCounter, value := sum }] }
      .SOLUTION depth idx sel sum path) := by
  constructor
  · simp [recordStep, h.counter_eq]
  · intro s hmem
    simp only [recordStep, List.mem_append, List.mem_singleton] at hmem
    rcases hmem with hmem | rfl
    · exact h.steps_ok s hmem
    · refine { solution_sum := fun _ => ?_, sum_eq := hsum, include_ok := nofun
               exclude_ok := nofun, not_complete := nofun }
      rcases hcond with hc | hc
      · exact Or.inl hc
      · exact Or.inr ⟨hc.1, hc.2⟩
  · simp [recordStep]
  · simp [recordStep, List.getLast?_concat]
  · simp [recordStep, List.getLast?_concat, hsel]
  · intro c hc
    simp only [recordStep, List.mem_append, List.mem_singleton] at hc
    rcases hc with hc | rfl
    · obtain ⟨s, hget, hrest⟩ := h.cand_ok c hc
      refine ⟨s, ?_, hrest⟩
      have hlt : c.stepIndex < st.steps.length := by
        by_contra hge
        rw [List.getElem?_eq_none (by omega)] at hget
        exact Option.noConfusion hget
      simpa [recordStep, List.getElem?_append_left hlt] using hget
    · refine ⟨{ stepId := st.stepCounter
                type := .SOLUTION
                depth := depth
                utxoIndex := idx
                currentSelection := sel
                currentSum := sum
                remainingValue := getRemainingSum utxos (idx + 1).toNat
                path := path }, ?_, rfl, rfl, rfl, rfl⟩
      simp [recordStep, h.counter_eq, List.getElem?_concat_length]

/-- The search invariant is preserved by `backtrack`, given the relations
between the accumulator arguments: the sum and the selection are
determined by the path, whose length is the next value index. -/
theorem backtrack_ok (utxos : List Int) (target tol : Int) (fuel : Nat) :
    ∀ (depth : Nat) (sel : List Nat) (sum : Int) (startIndex : Nat)
      (path : List Bool) (st : SearchState),
      utxos.length ≤ startIndex + fuel →
      sum = pathSum utxos path →
      path.length = startIndex →
      sel = trueIndices path →
      StateOK utxos target tol st →
      StateOK utxos target tol
        (backtrack utxos target tol fuel depth sel sum startIndex path st) := by
  induction fuel with
  | zero =>
    intro depth sel sum startIndex path st hfuel hsum hlen hsel hst
    rw [backtrack]
    dsimp only
    split
    · next hcond => exact hst.solution hcond hsum hsel
    · split
      · next hge =>
        exact hst.record { solution_sum := nofun, sum_eq := hsum, include_ok := nofun
                           exclude_ok := nofun, not_complete := nofun }
      · next hge => exact hst
  | succ fuel ih =>
    intro depth sel sum startIndex path st hfuel hsum hlen hsel hst
    rw [backtrack]
    dsimp only
    split
    · next hcond => exact hst.solution hcond hsum hsel
    · split
      · next hge =>
        exact hst.record { solution_sum := nofun, sum_eq := hsum, include_ok := nofun
                           exclude_ok := nofun, not_complete := nofun }
      · next hge =>
        have hidx : startIndex < utxos.length := by omega
        split
        · next hprune1 =>
          exact hst.record { solution_sum := nofun, sum_eq := hsum, include_ok := nofun
                             exclude_ok := nofun, not_complete := nofun }
        · split
          · next hprune2 =>
            exact hst.record { solution_sum := nofun, sum_eq := hsum, include_ok := nofun
                               exclude_ok := nofun, not_complete := nofun }
          · next hprune1 hprune2 =>
            have hsum' : sum + utxos.getD startIndex 0 = pathSum utxos (path ++ [true]) := by
              rw [pathSum_append, hlen, ← hsum]; simp
            have hsel0 : sel = trueIndicesFrom 0 path := hsel
            have hsel' : sel ++ [startIndex] = trueIndices (path ++ [true]) := by
              simp [trueIndices, trueIndicesFrom_append, hlen, ← hsel0]
            have hself : sel = trueIndices (path ++ [false]) := by
              simp [trueIndices, trueIndicesFrom_append, ← hsel0]
            have hsumf : sum = pathSum utxos (path ++ [false]) := by
              rw [pathSum_append, ← hsum]; simp
            have hInc : StateOK utxos target tol
                (recordStep utxos st .INCLUDE depth (startIndex : Int)
                  (sel ++ [startIndex]) (sum + utxos.getD startIndex 0) (path ++ [true])) := by
              refine hst.record ?_
              exact { solution_sum := nofun
                      sum_eq := hsum'
                      include_ok := fun _ => ⟨startIndex, rfl, hidx, by simp [hlen],
                        by simpa using hprune1, by simpa using hprune2⟩
                      exclude_ok := nofun
                      not_complete := nofun }
            have hRec1 := ih (depth + 1) (sel ++ [startIndex])
              (sum + utxos.getD startIndex 0) (startIndex + 1) (path ++ [true]) _
              (by omega) hsum' (by simp [hlen]) hsel' hInc
            have hExc : StateOK utxos target tol
                (recordStep utxos
                  (backtrack utxos target tol fuel (depth + 1) (sel ++ [startIndex])
                    (sum + utxos.getD startIndex 0) (startIndex + 1) (path ++ [true])
                    (recordStep utxos st .INCLUDE depth (startIndex : Int)
                      (sel ++ [startIndex]) (sum + utxos.getD startIndex 0)
                      (path ++ [true])))
                  .EXCLUDE depth (startIndex : Int) sel sum (path ++ [false])) := by
              refine hRec1.record ?_
              exact { solution_sum := nofun, sum_eq := hsumf, include_ok := nofun
                      exclude_ok := fun _ => ⟨startIndex, rfl, hidx, by simp [hlen],
                        hprune1, hprune2⟩
                      not_complete := nofun }
            exact ih (depth + 1) sel sum (startIndex + 1) (path ++ [false]) _
              (by omega) hsumf (by simp [hlen]) hself hExc

@[simp] theorem pathSum_nil (vs : List Int) : pathSum vs [] = 0 := by
  cases vs <;> rfl

/-- Whether a step is a `COMPLETE` step. -/
def isCompleteStep (s : AlgorithmStep) : Bool :=
  s.type == .COMPLETE

/-- The search invariant holds for the state `generateScenario` builds
just before appending the terminal `COMPLETE` step, and the returned
scenario is that state plus the `COMPLETE` step. -/
theorem generateScenario_ok (vals : List Int) (target tol : Int) :
    ∃ st : SearchState, StateOK (sortDesc vals) target tol st ∧
      (generateScenario vals target tol).utxos = sortDesc vals ∧
      (generateScenario vals target tol).steps = st.steps ++
        [{ stepId := st.stepCounter
           type := .COMPLETE
           depth := 0
           utxoIndex := 0
           currentSelection := []
           currentSum := 0
           remainingValue := getRemainingSum (sortDesc vals) 1
           path := [] }] ∧
      (generateScenario vals target tol).candidates = st.candidates ∧
      (generateScenario vals target tol).outcome =
        (if st.foundAnySolution then Outcome.success else Outcome.failure) ∧
      (generateScenario vals target tol).bestSolutionPath = st.bestSolutionPath ∧
      (generateScenario vals target tol).bestSolutionIndices = st.bestSolutionIndices := by
  have h0 : StateOK (sortDesc vals) target tol
      { steps := []
        candidates := []
        stepCounter := 0
        foundAnySolution := false
        bestSolutionIndices := none
        bestSolutionPath := none } := by
    constructor <;> simp
  refine ⟨backtrack (sortDesc vals) target tol (sortDesc vals).length 0 [] 0 0 [] _,
    backtrack_ok _ _ _ _ 0 [] 0 0 [] _ (by omega) (by simp) rfl rfl h0,
    ?_, ?_, ?_, ?_, ?_, ?_⟩ <;>
  simp [generateScenario, recordStep]

/-- C1: in every scenario, every `SOLUTION` step's `currentSum` equals the
target or lies strictly above it and within the dust tolerance. -/
theorem claim_C1 (vals : List Int) (target tol : Int) (s : AlgorithmStep)
    (hs : s ∈ (generateScenario vals target tol).steps)
    (hty : s.type = .SOLUTION) :
    s.currentSum = target ∨ (target < s.currentSum ∧ s.currentSum ≤ target + tol) := by
  obtain ⟨st, hok, hutxos, hsteps, hrest⟩ := generateScenario_ok vals target tol
  rw [hsteps] at hs
  rcases List.mem_append.mp hs with h | h
  · exact (hok.steps_ok s h).solution_sum hty
  · rw [List.mem_singleton] at h
    subst h
    exact absurd hty (by simp)

theorem claim_C1_witness :
    (100 : Int) = 100 ∨ ((100 : Int) < 100 ∧ (100 : Int) ≤ 100 + 0) :=
  claim_C1 [100] 100 0
    { stepId := 1
      type := .SOLUTION
      depth := 1
      utxoIndex := 0
      currentSelection := [0]
      currentSum := 100
      remainingValue := 0
      path := [true] }
    (by decide) (by decide)

/-- C2: in every scenario, every step's `currentSum` equals the sum of the
sorted values at exactly the positions where the step's path holds
`true`. -/
theorem claim_C2 (vals : List Int) (target tol : Int) (s : AlgorithmStep)
    (hs : s ∈ (generateScenario vals target tol).steps) :
    s.currentSum = pathSum (generateScenario vals target tol).utxos s.path := by
  obtain ⟨st, hok, hutxos, hsteps, hrest⟩ := generateScenario_ok vals target tol
  rw [hutxos]
  rw [hsteps] at hs
  rcases List.mem_append.mp hs with h | h
  · exact (hok.steps_ok s h).sum_eq
  · rw [List.mem_singleton] at h
    subst h
    simp

theorem claim_C2_witness :
    (100 : Int) = pathSum (generateScenario [100] 100 0).utxos [true] :=
  claim_C2 [100] 100 0
    { stepId := 1
      type := .SOLUTION
      depth := 1
      utxoIndex := 0
      currentSelection := [0]
      currentSum := 100
      remainingValue := 0
      path := [true] }
    (by decide)

/-- C3 (amended): no `INCLUDE`/`EXCLUDE` step is recorded *from* a node at
which a prune condition holds: for every such step, at the branching
(parent) node — whose sum is the step's `currentSum` for `EXCLUDE` and the
step's `currentSum` minus the included value for `INCLUDE`, and whose next
value index is the step's `utxoIndex` — neither prune condition of §4.1
holds.  (The step itself carries the child node's path and sum, at which a
prune condition may well hold; see the counterexample.) -/
theorem claim_C3 (vals : List Int) (target tol : Int) (s : AlgorithmStep)
    (hs : s ∈ (generateScenario vals target tol).steps) :
    (s.type = .INCLUDE →
      ∃ i : Nat, s.utxoIndex = (i : Int) ∧
        i < (generateScenario vals target tol).utxos.length ∧
        s.path.length = i + 1 ∧
        ¬(s.currentSum - (generateScenario vals target tol).utxos.getD i 0 +
            getRemainingSum (generateScenario vals target tol).utxos i < target) ∧
        ¬(s.currentSum - (generateScenario vals target tol).utxos.getD i 0 >
            target + tol)) ∧
    (s.type = .EXCLUDE →
      ∃ i : Nat, s.utxoIndex = (i : Int) ∧
        i < (generateScenario vals target tol).utxos.length ∧
        s.path.length = i + 1 ∧
        ¬(s.currentSum + getRemainingSum (generateScenario vals target tol).utxos i <
            target) ∧
        ¬(s.currentSum > target + tol)) := by
  obtain ⟨st, hok, hutxos, hsteps, hrest⟩ := generateScenario_ok vals target tol
  rw [hutxos]
  rw [hsteps] at hs
  rcases List.mem_append.mp hs with h | h
  · exact ⟨(hok.steps_ok s h).include_ok, (hok.steps_ok s h).exclude_ok⟩
  · rw [List.mem_singleton] at h
    subst h
    exact ⟨fun hty => absurd hty (by simp), fun hty => absurd hty (by simp)⟩

theorem claim_C3_witness :
    ((StepType.INCLUDE = .INCLUDE →
      ∃ i : Nat, (0 : Int) = (i : Int) ∧
        i < (generateScenario [100] 100 0).utxos.length ∧
        ([true] : List Bool).length = i + 1 ∧
        ¬((100 : Int) - (generateScenario [100] 100 0).utxos.getD i 0 +
            getRemainingSum (generateScenario [100] 100 0).utxos i < 100) ∧
        ¬((100 : Int) - (generateScenario [100] 100 0).utxos.getD i 0 > 100 + 0)) ∧
    (StepType.INCLUDE = .EXCLUDE →
      ∃ i : Nat, (0 : Int) = (i : Int) ∧
        i < (generateScenario [100] 100 0).utxos.length ∧
        ([true] : List Bool).length = i + 1 ∧
        ¬((100 : Int) + getRemainingSum (generateScenario [100] 100 0).utxos i < 100) ∧
        ¬((100 : Int) > 100 + 0))) :=
  claim_C3 [100] 100 0
    { stepId := 0
      type := .INCLUDE
      depth := 0
      utxoIndex := 0
      currentSelection := [0]
      currentSum := 100
      remainingValue := 0
      path := [true] }
    (by decide)

/-- C4: the outcome is `success` exactly when the candidate list is
non-empty; the best solution path is the last candidate's path and the
best solution indices are the selection denoted by that path (`none` when
no candidate exists). -/
theorem claim_C4 (vals : List Int) (target tol : Int) :
    ((generateScenario vals target tol).outcome = .success ↔
      (generateScenario vals target tol).candidates ≠ []) ∧
    (generateScenario vals target tol).bestSolutionPath =
      ((generateScenario vals target tol).candidates.getLast?).map
        SolutionCandidate.path ∧
    (generateScenario vals target tol).bestSolutionIndices =
      ((generateScenario vals target tol).candidates.getLast?).map
        (fun c => trueIndices c.path) := by
  obtain ⟨st, hok, hutxos, hsteps, hcands, houtcome, hbp, hbi⟩ :=
    generateScenario_ok vals target tol
  rw [houtcome, hcands, hbp, hbi]
  refine ⟨?_, hok.best_path, hok.best_idx⟩
  have hiff := hok.found_iff
  cases hfd : st.foundAnySolution with
  | false =>
    rw [hfd] at hiff
    simp only [Bool.false_eq_true, false_iff, not_not] at hiff
    simp [hiff]
  | true =>
    rw [hfd] at hiff
    simp only [true_iff] at hiff
    simp [hiff]

/-- C6: every candidate points at its own `SOLUTION` step: the trace entry
at position `stepIndex` exists, its `stepId` is `stepIndex`, its kind is
`SOLUTION`, and its path and sum are the candidate's. -/
theorem claim_C6 (vals : List Int) (target tol : Int) (c : SolutionCandidate)
    (hc : c ∈ (generateScenario vals target tol).candidates) :
    ∃ s, (generateScenario vals target tol).steps[c.stepIndex]? = some s ∧
      s.stepId = c.stepIndex ∧ s.type = .SOLUTION ∧ s.path = c.path ∧
      s.currentSum = c.value := by
  obtain ⟨st, hok, hutxos, hsteps, hcands, hrest⟩ := generateScenario_ok vals target tol
  rw [hcands] at hc
  obtain ⟨s, hget, h1, h2, h3, h4⟩ := hok.cand_ok c hc
  refine ⟨s, ?_, h1, h2, h3, h4⟩
  rw [hsteps]
  have hlt : c.stepIndex < st.steps.length := by
    by_contra hge
    rw [List.getElem?_eq_none (by omega)] at hget
    exact Option.noConfusion hget
  rw [List.getElem?_append_left hlt]
  exact hget

theorem claim_C6_witness :
    ∃ s, (generateScenario [100] 100 0).steps[(1 : Nat)]? = some s ∧
      s.stepId = 1 ∧ s.type = .SOLUTION ∧ s.path = [true] ∧
      s.currentSum = 100 :=
  claim_C6 [100] 100 0 { path := [true], stepIndex := 1, value := 100 } (by decide)

/-- C9: for every finite list of non-negative values and non-negative
target and tolerance the search terminates — the embedding is a total
function — and the trace ends with a `COMPLETE` step that is the only
`COMPLETE` step of the trace. -/
theorem claim_C9 (vals : List Int) (target tol : Int)
    (_hvals : ∀ v ∈ vals, 0 ≤ v) (_htarget : 0 ≤ target) (_htol : 0 ≤ tol) :
    ((generateScenario vals target tol).steps.getLast?).map AlgorithmStep.type =
      some .COMPLETE ∧
    (generateScenario vals target tol).steps.countP isCompleteStep = 1 := by
  obtain ⟨st, hok, hutxos, hsteps, hrest⟩ := generateScenario_ok vals target tol
  rw [hsteps]
  constructor
  · rw [List.getLast?_concat]
    rfl
  · rw [List.countP_append]
    have h0 : st.steps.countP isCompleteStep = 0 := by
      rw [List.countP_eq_zero]
      intro s hsm
      have := (hok.steps_ok s hsm).not_complete
      simpa [isCompleteStep] using this
    rw [h0]
    simp [isCompleteStep, List.countP_cons]

theorem claim_C9_witness :
    ((generateScenario [100] 100 0).steps.getLast?).map AlgorithmStep.type =
      some .COMPLETE ∧
    (generateScenario [100] 100 0).steps.countP isCompleteStep = 1 :=
  claim_C9 [100] 100 0 (by decide) (by decide) (by decide)

/-- C10 (amended): `generateScenario` performs no input validation and
signals no error: for every input — including inputs containing a
negative value or a negative target or tolerance — the search runs and a
`Scenario` with a non-empty recorded trace is returned. -/
theorem claim_C10 (vals : List Int) (target tol : Int)
    (_hneg : (∃ v ∈ vals, v < 0) ∨ target < 0 ∨ tol < 0) :
    (generateScenario vals target tol).steps ≠ [] := by
  obtain ⟨st, hok, hutxos, hsteps, hrest⟩ := generateScenario_ok vals target tol
  rw [hsteps]
  simp

theorem claim_C10_witness :
    (generateScenario [-5] 10 0).steps ≠ [] :=
  claim_C10 [-5] 10 0 (Or.inl ⟨-5, by decide, by decide⟩)


/-- `isPrefix` from `TreeGraph` (`src/App.tsx`): a length test, then a
pointwise comparison of the shared positions (zipping truncates to the
shorter list, i.e. to `p`).  Named `isAncestorPath` here. -/
def isAncestorPath (p fullPath : List Bool) : Bool :=
  if fullPath.length < p.length then false
  else (p.zip fullPath).all fun pr => pr.1 == pr.2

/-- The lineage classification of a node path, from `getPathStatus` in
`TreeGraph` (`src/App.tsx`). -/
inductive PathStatus where
  | best
  | candidate
  | none
deriving DecidableEq, Repr

/-- The guard of the `best` branch of `getPathStatus`
(`bestSolutionPath && isPrefix(path, bestSolutionPath) && path.length <=
bestSolutionPath.length`, with the truthiness test of the optional made
explicit). -/
def bestCond (bestSolutionPath : Option (List Bool)) (path : List Bool) : Bool :=
  match bestSolutionPath with
  | some bp => isAncestorPath path bp && decide (path.length ≤ bp.length)
  | none => false

/-- The guard of the `candidate` branch of `getPathStatus`: some candidate
whose recording step index is visible at the cursor has the node path as a
prefix of its path. -/
def candCond (candidates : List SolutionCandidate) (currentStepIndex : Nat)
    (path : List Bool) : Bool :=
  let visibleCandidates := candidates.filter fun c => decide (c.stepIndex ≤ currentStepIndex)
  visibleCandidates.any fun c =>
    isAncestorPath path c.path && decide (path.length ≤ c.path.length)

/-- `getPathStatus` from `TreeGraph` (`src/App.tsx`): `best` when the node
path reaches into the best solution path, else `candidate` when it reaches
into the path of a candidate whose recording step is visible at the
current cursor, else `none`. -/
def getPathStatus (bestSolutionPath : Option (List Bool))
    (candidates : List SolutionCandidate) (currentStepIndex : Nat)
    (path : List Bool) : PathStatus :=
  if bestCond bestSolutionPath path then
    .best
  else if candCond candidates currentStepIndex path then
    .candidate
  else
    .none

theorem isAncestorPath_iff (p q : List Bool) :
    isAncestorPath p q = true ↔ p <+: q := by
  induction p generalizing q with
  | nil =>
    constructor
    · intro _
      exact ⟨q, rfl⟩
    · intro _
      simp [isAncestorPath]
  | cons a p ih =>
    cases q with
    | nil =>
      constructor
      · intro h
        rw [isAncestorPath] at h
        simp at h
      · rintro ⟨t, ht⟩
        exact absurd ht (by simp)
    | cons b q =>
      constructor
      · intro h
        rw [isAncestorPath] at h
        split at h
        · exact absurd h (by simp)
        · next hlen =>
          have hlen' : ¬(q.length < p.length) := by
            simp only [List.length_cons] at hlen
            omega
          simp only [List.zip_cons_cons, List.all_cons, Bool.and_eq_true, beq_iff_eq] at h
          obtain ⟨rfl, h2⟩ := h
          have hp : p <+: q := by
            apply (ih q).mp
            rw [isAncestorPath, if_neg hlen']
            exact h2
          obtain ⟨t, rfl⟩ := hp
          exact ⟨t, rfl⟩
      · rintro ⟨t, ht⟩
        injection ht with hab hpq
        subst hab
        have hp : p <+: q := ⟨t, hpq⟩
        have hlen' : p.length ≤ q.length := by
          obtain ⟨t2, rfl⟩ := hp
          simp
        have h2 := (ih q).mpr hp
        rw [isAncestorPath, if_neg (by omega)] at h2
        rw [isAncestorPath, if_neg (by simp only [List.length_cons]; omega)]
        simp only [List.zip_cons_cons, List.all_cons, Bool.and_eq_true, beq_iff_eq]
        exact ⟨by simp, h2⟩

/-- C7: the lineage classification is `best` exactly when a best-solution
path `B` is provided with `len(P) ≤ len(B)` and `P` a prefix of `B`;
otherwise `candidate` exactly when some candidate recorded at a step index
`≤ i` has a path `C` with `len(P) ≤ len(C)` and `P` a prefix of `C`;
otherwise `none`. -/
theorem claim_C7 (bestSolutionPath : Option (List Bool))
    (candidates : List SolutionCandidate) (i : Nat) (P : List Bool) :
    (getPathStatus bestSolutionPath candidates i P = .best ↔
      ∃ B, bestSolutionPath = some B ∧ P.length ≤ B.length ∧ P <+: B) ∧
    (getPathStatus bestSolutionPath candidates i P = .candidate ↔
      ¬(∃ B, bestSolutionPath = some B ∧ P.length ≤ B.length ∧ P <+: B) ∧
      ∃ c ∈ candidates, c.stepIndex ≤ i ∧ P.length ≤ c.path.length ∧ P <+: c.path) ∧
    (getPathStatus bestSolutionPath candidates i P = .none ↔
      ¬(∃ B, bestSolutionPath = some B ∧ P.length ≤ B.length ∧ P <+: B) ∧
      ¬∃ c ∈ candidates, c.stepIndex ≤ i ∧ P.length ≤ c.path.length ∧ P <+: c.path) := by
  have hbestIff : bestCond bestSolutionPath P = true ↔
      ∃ B, bestSolutionPath = some B ∧ P.length ≤ B.length ∧ P <+: B := by
    cases bestSolutionPath with
    | none => simp [bestCond]
    | some bp =>
      rw [bestCond]
      simp only [Bool.and_eq_true, decide_eq_true_eq, isAncestorPath_iff,
        Option.some.injEq]
      constructor
      · rintro ⟨hpre, hlen⟩
        exact ⟨bp, rfl, hlen, hpre⟩
      · rintro ⟨B, rfl, hlen, hpre⟩
        exact ⟨hpre, hlen⟩
  have hcandIff : candCond candidates i P = true ↔
      ∃ c ∈ candidates, c.stepIndex ≤ i ∧ P.length ≤ c.path.length ∧ P <+: c.path := by
    rw [candCond]
    simp only [List.any_eq_true, List.mem_filter, Bool.and_eq_true,
      decide_eq_true_eq, isAncestorPath_iff]
    constructor
    · rintro ⟨c, ⟨hc, hi⟩, hpre, hlen⟩
      exact ⟨c, hc, hi, hlen, hpre⟩
    · rintro ⟨c, hc, hi, hlen, hpre⟩
      exact ⟨c, ⟨hc, hi⟩, hpre, hlen⟩
  rw [getPathStatus]
  by_cases hb : bestCond bestSolutionPath P = true
  · rw [if_pos hb]
    refine ⟨⟨fun _ => hbestIff.mp hb, fun _ => rfl⟩, ?_, ?_⟩
    · exact iff_of_false (by simp) fun h => h.1 (hbestIff.mp hb)
    · exact iff_of_false (by simp) fun h => h.1 (hbestIff.mp hb)
  · rw [if_neg hb]
    by_cases hc : candCond candidates i P = true
    · rw [if_pos hc]
      refine ⟨?_, ?_, ?_⟩
      · exact iff_of_false (by simp) fun h => hb (hbestIff.mpr h)
      · exact iff_of_true rfl ⟨fun h => hb (hbestIff.mpr h), hcandIff.mp hc⟩
      · exact iff_of_false (by simp) fun h => h.2 (hcandIff.mp hc)
    · rw [if_neg hc]
      refine ⟨?_, ?_, ?_⟩
      · exact iff_of_false (by simp) fun h => hb (hbestIff.mpr h)
      · exact iff_of_false (by simp) fun h => hc (hcandIff.mpr h.2)
      · exact iff_of_true rfl
          ⟨fun h => hb (hbestIff.mpr h), fun h => hc (hcandIff.mpr h)⟩

/-- Node statuses of the replay reconstruction (`TreeNode.status` in
`TreeGraph`, `src/App.tsx`). -/
inductive NodeStatus where
  | pending
  | visited
  | active
  | pruned
  | solution
deriving DecidableEq, Repr

/-- The replay node map: an insertion-ordered association list keyed by
the node path.  The source keys its `Map` by `getPathId(path)`, which is
injective, so the two key spaces are in bijection. -/
abbrev NodeMap := List (List Bool × NodeStatus)

/-- `nodeMap.set(key, value)` on a JS `Map`: replaces in place when the
key exists, appends otherwise. -/
def mapSet : NodeMap → List Bool → NodeStatus → NodeMap
  | [], k, v => [(k, v)]
  | (k', v') :: rest, k, v =>
    if k' = k then (k, v) :: rest else (k', v') :: mapSet rest k v

/-- `if (!nodeMap.has(childId)) nodeMap.set(childId, {..status: 'visited'})`. -/
def insertIfAbsent (m : NodeMap) (k : List Bool) : NodeMap :=
  match m.lookup k with
  | some _ => m
  | none => m ++ [(k, NodeStatus.visited)]

/-- The `step.path.forEach` loop of the reconstruction: materialize every
node along a step's path (each nonempty prefix `path.take (d+1)`) with
status `visited` when absent. -/
def insertAlong (m : NodeMap) (p : List Bool) : NodeMap :=
  (List.range p.length).foldl (fun m d => insertIfAbsent m (p.take (d + 1))) m

/-- The status-update block of the reconstruction loop for the node at the
step's own path, mirroring the source's sequence of assignments: the
active/visited update, the prune overwrite, the solution overwrite, and
the final cursor override. -/
def updStatus (isCursor : Bool) (ty : StepType) (cur : NodeStatus) : NodeStatus :=
  let s1 := if isCursor then NodeStatus.active
            else if cur ≠ NodeStatus.pruned ∧ cur ≠ NodeStatus.solution then NodeStatus.visited
            else cur
  let s2 := if ty = .PRUNE_SUM ∨ ty = .PRUNE_VAL then NodeStatus.pruned else s1
  let s3 := if ty = .SOLUTION then NodeStatus.solution else s2
  if isCursor then
    if ty = .PRUNE_SUM ∨ ty = .PRUNE_VAL then NodeStatus.pruned
    else if ty = .SOLUTION then NodeStatus.solution
    else NodeStatus.active
  else s3

/-- One iteration of the reconstruction loop (`for i in 0..cursor`):
materialize the nodes along the step's path, then update the status of the
node at the step's path. -/
def applyStep (cursor : Nat) (m : NodeMap) (ks : Nat × AlgorithmStep) : NodeMap :=
  let m1 := insertAlong m ks.2.path
  match m1.lookup ks.2.path with
  | none => m1
  | some cur => mapSet m1 ks.2.path (updStatus (ks.1 == cursor) ks.2.type cur)

/-- The node map built by the `TreeGraph` reconstruction for a cursor:
the root is seeded with status `pending`, then the steps up to and
including the cursor are applied in order with their indices. -/
def buildNodeMap (steps : List AlgorithmStep) (cursor : Nat) : NodeMap :=
  ((steps.take (cursor + 1)).enum).foldl (applyStep cursor) [([], NodeStatus.pending)]

/-- The status the reconstruction at a cursor assigns to the node path
`P` (`none` when the node does not exist yet). -/
def statusAt (steps : List AlgorithmStep) (cursor : Nat) (P : List Bool) :
    Option NodeStatus :=
  (buildNodeMap steps cursor).lookup P

theorem beq_list_false (k' k : List Bool) (h : ¬k' = k) : (k' == k) = false := by
  cases hx : k' == k
  · rfl
  · exact absurd (beq_iff_eq.mp hx) h

theorem lookup_mapSet (m : NodeMap) (k k' : List Bool) (v : NodeStatus) :
    (mapSet m k v).lookup k' = if k' = k then some v else m.lookup k' := by
  induction m with
  | nil =>
    by_cases h : k' = k
    · subst h
      simp [mapSet, List.lookup]
    · simp [mapSet, List.lookup, h, beq_list_false k' k h]
  | cons a m ih =>
    obtain ⟨ka, va⟩ := a
    rw [mapSet]
    by_cases h1 : ka = k
    · subst h1
      by_cases h : k' = ka
      · subst h
        simp [List.lookup]
      · simp [List.lookup, h, beq_list_false k' ka h]
    · rw [if_neg h1]
      by_cases h : k' = ka
      · subst h
        have h2 : ¬k' = k := fun hh => h1 hh
        simp [List.lookup, h2]
      · simp [List.lookup, beq_list_false k' ka h, ih]

theorem lookup_append_single (m : NodeMap) (k k' : List Bool) (v : NodeStatus) :
    (m ++ [(k, v)]).lookup k' =
      match m.lookup k' with
      | some x => some x
      | none => if k' = k then some v else none := by
  induction m with
  | nil =>
    by_cases h : k' = k
    · subst h
      simp [List.lookup]
    · simp [List.lookup, h, beq_list_false k' k h]
  | cons a m ih =>
    obtain ⟨ka, va⟩ := a
    by_cases h : k' = ka
    · subst h
      simp [List.lookup]
    · simp [List.lookup, beq_list_false k' ka h, ih]

theorem lookup_insertIfAbsent (m : NodeMap) (k k' : List Bool) :
    (insertIfAbsent m k).lookup k' =
      match m.lookup k' with
      | some x => some x
      | none => if k' = k then some NodeStatus.visited else none := by
  rw [insertIfAbsent]
  cases hm : m.lookup k with
  | some x =>
    cases hq : m.lookup k' with
    | some y => simp [hq]
    | none =>
      by_cases h : k' = k
      · subst h
        rw [hq] at hm
        exact Option.noConfusion hm
      · simp [hq, h]
  | none =>
    rw [lookup_append_single]

theorem lookup_insertAlongAux (p P : List Bool) (n : Nat) (hn : n ≤ p.length) :
    ∀ m : NodeMap,
      ((List.range n).foldl (fun m d => insertIfAbsent m (p.take (d + 1))) m).lookup P =
        match m.lookup P with
        | some x => some x
        | none =>
          if P ≠ [] ∧ P.length ≤ n ∧ isAncestorPath P p = true then
            some NodeStatus.visited
          else none := by
  induction n with
  | zero =>
    intro m
    cases hm : m.lookup P with
    | some x => simp [hm]
    | none =>
      simp only [List.range_zero, List.foldl_nil, hm]
      rw [if_neg]
      rintro ⟨h1, h2, _⟩
      exact h1 (List.length_eq_zero.mp (by omega))
  | succ n ih =>
    intro m
    rw [List.range_succ, List.foldl_append]
    have hstep : ∀ acc : NodeMap,
        List.foldl (fun m d => insertIfAbsent m (p.take (d + 1))) acc [n] =
          insertIfAbsent acc (p.take (n + 1)) := fun acc => rfl
    rw [hstep, lookup_insertIfAbsent, ih (by omega) m]
    cases hm : m.lookup P with
    | some x => rfl
    | none =>
      dsimp only
      by_cases hc : P ≠ [] ∧ P.length ≤ n ∧ isAncestorPath P p = true
      · rw [if_pos hc]
        dsimp only
        rw [if_pos ⟨hc.1, by omega, hc.2.2⟩]
      · rw [if_neg hc]
        dsimp only
        by_cases he : P = p.take (n + 1)
        · have hlen : (p.take (n + 1)).length = n + 1 := by
            rw [List.length_take]
            omega
          rw [if_pos he, if_pos ?side]
          case side =>
            subst he
            refine ⟨?_, by omega, ?_⟩
            · intro hnil
              rw [hnil] at hlen
              simp at hlen
            · exact (isAncestorPath_iff _ _).mpr ⟨p.drop (n + 1), List.take_append_drop _ _⟩
        · rw [if_neg he, if_neg]
          rintro ⟨h1, h2, h3⟩
          obtain ⟨t, ht⟩ := (isAncestorPath_iff P p).mp h3
          have hle : ¬P.length ≤ n := fun hx => hc ⟨h1, hx, h3⟩
          have hPlen : P.length = n + 1 := by omega
          apply he
          have htake := List.take_left P t
          rw [ht, hPlen] at htake
          exact htake.symm

theorem lookup_insertAlong (m : NodeMap) (p P : List Bool) :
    (insertAlong m p).lookup P =
      match m.lookup P with
      | some x => some x
      | none =>
        if P ≠ [] ∧ isAncestorPath P p = true then some NodeStatus.visited
        else none := by
  rw [insertAlong, lookup_insertAlongAux p P p.length (Nat.le_refl _) m]
  cases hm : m.lookup P with
  | some x => rfl
  | none =>
    dsimp only
    by_cases hA : P ≠ [] ∧ isAncestorPath P p = true
    · have hlen : P.length ≤ p.length := by
        obtain ⟨t, rfl⟩ := (isAncestorPath_iff P p).mp hA.2
        simp
      rw [if_pos ⟨hA.1, hlen, hA.2⟩, if_pos hA]
    · rw [if_neg (fun h => hA ⟨h.1, h.2.2⟩), if_neg hA]

/-- The projection of one reconstruction iteration onto the status of a
fixed node path `P`: a step at `P` itself applies the status-update block
(a node absent at that moment was just materialized as `visited`); a step
whose path passes strictly through `P` materializes it as `visited` when
absent; any other step leaves `P` alone. -/
def stepStatus (cursor : Nat) (P : List Bool) (st : Option NodeStatus)
    (ks : Nat × AlgorithmStep) : Option NodeStatus :=
  if ks.2.path = P then
    some (updStatus (ks.1 == cursor) ks.2.type (st.getD NodeStatus.visited))
  else if st = none ∧ P ≠ [] ∧ isAncestorPath P ks.2.path = true then
    some NodeStatus.visited
  else
    st

theorem lookup_applyStep (cursor : Nat) (P : List Bool) (m : NodeMap)
    (ks : Nat × AlgorithmStep) (hroot : ¬m.lookup [] = none) :
    (applyStep cursor m ks).lookup P = stepStatus cursor P (m.lookup P) ks := by
  rw [applyStep]
  cases hm1 : (insertAlong m ks.2.path).lookup ks.2.path with
  | none =>
    exfalso
    rw [lookup_insertAlong] at hm1
    cases hm : m.lookup ks.2.path with
    | some x =>
      rw [hm] at hm1
      exact Option.noConfusion hm1
    | none =>
      rw [hm] at hm1
      dsimp only at hm1
      by_cases hp : ks.2.path = ([] : List Bool)
      · rw [hp] at hm
        exact hroot hm
      · rw [if_pos ⟨hp, (isAncestorPath_iff _ _).mpr ⟨[], List.append_nil _⟩⟩] at hm1
        exact Option.noConfusion hm1
  | some cur =>
    dsimp only
    rw [lookup_mapSet]
    by_cases hp : P = ks.2.path
    · rw [if_pos hp, stepStatus, if_pos hp.symm]
      rw [lookup_insertAlong] at hm1
      cases hm : m.lookup ks.2.path with
      | some x =>
        rw [hm] at hm1
        cases hm1
        rw [hp, hm]
        rfl
      | none =>
        rw [hm] at hm1
        dsimp only at hm1
        by_cases hnil : ks.2.path = ([] : List Bool)
        · rw [hnil] at hm
          exact absurd hm hroot
        · rw [if_pos ⟨hnil, (isAncestorPath_iff _ _).mpr ⟨[], List.append_nil _⟩⟩] at hm1
          cases hm1
          rw [hp, hm]
          rfl
    · rw [if_neg hp, lookup_insertAlong, stepStatus, if_neg (Ne.symm hp)]
      cases hm : m.lookup P with
      | some x =>
        dsimp only
        have hni : ¬((some x : Option NodeStatus) = none ∧ P ≠ [] ∧
            isAncestorPath P ks.2.path = true) := by
          rintro ⟨h1, _⟩
          exact Option.noConfusion h1
        rw [if_neg hni]
      | none =>
        dsimp only
        by_cases hA : P ≠ [] ∧ isAncestorPath P ks.2.path = true
        · rw [if_pos hA, if_pos ⟨rfl, hA.1, hA.2⟩]
        · rw [if_neg (fun h => hA ⟨h.1, h.2⟩),
            if_neg (fun h : (none : Option NodeStatus) = none ∧ P ≠ [] ∧
              isAncestorPath P ks.2.path = true => hA ⟨h.2.1, h.2.2⟩)]

theorem applyStep_root (cursor : Nat) (m : NodeMap) (ks : Nat × AlgorithmStep)
    (hroot : ¬m.lookup [] = none) :
    ¬(applyStep cursor m ks).lookup [] = none := by
  rw [lookup_applyStep cursor [] m ks hroot, stepStatus]
  by_cases hp : ks.2.path = ([] : List Bool)
  · rw [if_pos hp]
    exact fun h => Option.noConfusion h
  · rw [if_neg hp, if_neg (fun h => h.2.1 rfl)]
    exact hroot

theorem lookup_foldl (cursor : Nat) (P : List Bool) (l : List (Nat × AlgorithmStep)) :
    ∀ m : NodeMap, ¬m.lookup [] = none →
      (l.foldl (applyStep cursor) m).lookup P =
        l.foldl (stepStatus cursor P) (m.lookup P) := by
  induction l with
  | nil =>
    intro m _
    rfl
  | cons ks l ih =>
    intro m hroot
    rw [List.foldl_cons, List.foldl_cons,
      ih (applyStep cursor m ks) (applyStep_root cursor m ks hroot),
      lookup_applyStep cursor P m ks hroot]

/-- The status the reconstruction assigns to `P` is the fold of the
projected step function over the enumerated step prefix. -/
theorem statusAt_eq (steps : List AlgorithmStep) (cursor : Nat) (P : List Bool) :
    statusAt steps cursor P =
      ((steps.take (cursor + 1)).enum).foldl (stepStatus cursor P)
        (if P = [] then some NodeStatus.pending else none) := by
  rw [statusAt, buildNodeMap, lookup_foldl cursor P _ _ (by simp [List.lookup])]
  congr 1
  by_cases h : P = []
  · subst h
    simp [List.lookup]
  · simp [List.lookup, beq_list_false P [] h, h]

theorem ne_beq_false {a b : Nat} (h : ¬a = b) : (a == b) = false := by
  cases hx : a == b
  · rfl
  · exact absurd (beq_iff_eq.mp hx) h

theorem updStatus_true_eq_pruned (ty : StepType) (cur : NodeStatus) :
    updStatus true ty cur = NodeStatus.pruned ↔ (ty = .PRUNE_SUM ∨ ty = .PRUNE_VAL) := by
  cases ty <;> simp [updStatus]

theorem updStatus_true_eq_solution (ty : StepType) (cur : NodeStatus) :
    updStatus true ty cur = NodeStatus.solution ↔ ty = .SOLUTION := by
  cases ty <;> simp [updStatus]

theorem updStatus_false_prune (ty : StepType) (cur : NodeStatus)
    (h : ty = .PRUNE_SUM ∨ ty = .PRUNE_VAL) :
    updStatus false ty cur = NodeStatus.pruned := by
  rcases h with rfl | rfl <;> simp [updStatus]

theorem updStatus_false_solution (cur : NodeStatus) :
    updStatus false .SOLUTION cur = NodeStatus.solution := by
  simp [updStatus]

/-- From a terminal status (`pruned`/`solution`), one projected step
yields a terminal status again, except that the step sitting exactly at
the cursor and at this very path yields `active`. -/
theorem stepStatus_terminal_step (c : Nat) (P : List Bool) (st : Option NodeStatus)
    (ks : Nat × AlgorithmStep)
    (hst : st = some NodeStatus.pruned ∨ st = some NodeStatus.solution) :
    (stepStatus c P st ks = some NodeStatus.pruned ∨
     stepStatus c P st ks = some NodeStatus.solution) ∨
    (stepStatus c P st ks = some NodeStatus.active ∧ ks.1 = c ∧ ks.2.path = P) := by
  by_cases hp : ks.2.path = P
  · by_cases hcur : ks.1 = c
    · have hb : (ks.1 == c) = true := beq_iff_eq.mpr hcur
      rcases hst with rfl | rfl <;>
        cases hty : ks.2.type <;>
          simp [stepStatus, hp, hb, hty, updStatus, hcur]
    · have hb : (ks.1 == c) = false := ne_beq_false hcur
      rcases hst with rfl | rfl <;>
        cases hty : ks.2.type <;>
          simp [stepStatus, hp, hb, hty, updStatus]
  · rcases hst with rfl | rfl <;> simp [stepStatus, hp]

/-- The projected step function ignores the cursor entirely when the step
index is neither cursor. -/
theorem stepStatus_cursor_irrel (c1 c2 : Nat) (P : List Bool) (st : Option NodeStatus)
    (ks : Nat × AlgorithmStep) (h1 : ¬ks.1 = c1) (h2 : ¬ks.1 = c2) :
    stepStatus c1 P st ks = stepStatus c2 P st ks := by
  simp only [stepStatus, ne_beq_false h1, ne_beq_false h2]

/-- When the cursor-`i` projection of a step yields a terminal status, the
projection with any other cursor `j` not equal to the step's index yields
the same status (the override for a prune/solution step agrees with the
plain update). -/
theorem stepStatus_transfer (i j : Nat) (P : List Bool) (st : Option NodeStatus)
    (ks : Nat × AlgorithmStep) (hnej : ¬ks.1 = j)
    (hT : stepStatus i P st ks = some NodeStatus.pruned ∨
          stepStatus i P st ks = some NodeStatus.solution) :
    stepStatus j P st ks = stepStatus i P st ks := by
  by_cases hi : ks.1 = i
  · by_cases hp : ks.2.path = P
    · have hbi : (ks.1 == i) = true := beq_iff_eq.mpr hi
      have hbj : (ks.1 == j) = false := ne_beq_false hnej
      simp only [stepStatus, if_pos hp, hbi, hbj, Option.some.injEq] at hT ⊢
      rcases hT with hT | hT
      · rw [hT]
        exact updStatus_false_prune _ _ ((updStatus_true_eq_pruned _ _).mp hT)
      · rw [hT, (updStatus_true_eq_solution _ _).mp hT]
        exact updStatus_false_solution _
    · simp only [stepStatus, if_neg hp]
  · exact stepStatus_cursor_irrel j i P st ks hnej hi

/-- A fold of the projected step function over steps none of which sits at
the cursor preserves a terminal status. -/
theorem foldl_stepStatus_terminal (c : Nat) (P : List Bool) :
    ∀ (l : List (Nat × AlgorithmStep)) (st : Option NodeStatus),
      (st = some NodeStatus.pruned ∨ st = some NodeStatus.solution) →
      (∀ ks ∈ l, ¬ks.1 = c) →
      (l.foldl (stepStatus c P) st = some NodeStatus.pruned ∨
       l.foldl (stepStatus c P) st = some NodeStatus.solution) := by
  intro l
  induction l with
  | nil =>
    intro st hst _
    exact hst
  | cons ks l ih =>
    intro st hst hl
    rw [List.foldl_cons]
    apply ih
    · rcases stepStatus_terminal_step c P st ks hst with h | h
      · exact h
      · exact absurd h.2.1 (hl ks (List.mem_cons_self _ _))
    · intro a ha
      exact hl a (List.mem_cons_of_mem _ ha)

/-- A fold of the projected step function starting from a terminal status,
over a list whose non-final elements avoid the cursor, ends terminal or
`active`; in the `active` case the final element sits at the cursor and at
this path. -/
theorem foldl_stepStatus_last (c : Nat) (P : List Bool) :
    ∀ (l : List (Nat × AlgorithmStep)) (st : Option NodeStatus),
      (st = some NodeStatus.pruned ∨ st = some NodeStatus.solution) →
      (∀ ks ∈ l.dropLast, ¬ks.1 = c) →
      ((l.foldl (stepStatus c P) st = some NodeStatus.pruned ∨
        l.foldl (stepStatus c P) st = some NodeStatus.solution) ∨
       (l.foldl (stepStatus c P) st = some NodeStatus.active ∧
        ∃ ks, l.getLast? = some ks ∧ ks.1 = c ∧ ks.2.path = P)) := by
  intro l
  induction l with
  | nil =>
    intro st hst _
    exact Or.inl hst
  | cons ks l ih =>
    intro st hst hl
    cases l with
    | nil =>
      rw [List.foldl_cons, List.foldl_nil]
      rcases stepStatus_terminal_step c P st ks hst with h | h
      · exact Or.inl h
      · exact Or.inr ⟨h.1, ks, rfl, h.2.1, h.2.2⟩
    | cons b l2 =>
      rw [List.foldl_cons]
      have hdl : (ks :: b :: l2).dropLast = ks :: (b :: l2).dropLast := rfl
      have hks : ¬ks.1 = c := hl ks (by rw [hdl]; exact List.mem_cons_self _ _)
      have hst' : stepStatus c P st ks = some NodeStatus.pruned ∨
          stepStatus c P st ks = some NodeStatus.solution := by
        rcases stepStatus_terminal_step c P st ks hst with h | h
        · exact h
        · exact absurd h.2.1 hks
      have hl' : ∀ a ∈ (b :: l2).dropLast, ¬a.1 = c := by
        intro a ha
        exact hl a (by rw [hdl]; exact List.mem_cons_of_mem _ ha)
      rcases ih (stepStatus c P st ks) hst' hl' with h | h
      · exact Or.inl h
      · refine Or.inr ⟨h.1, ?_⟩
        obtain ⟨a, hg, ha⟩ := h.2
        exact ⟨a, by rw [List.getLast?_cons_cons]; exact hg, ha⟩

/-- Folding with cursor `j` over a list all of whose elements avoid index
`j`, and whose non-final elements avoid index `i`, agrees with the
cursor-`i` fold whenever the latter ends in a terminal status. -/
theorem foldl_transfer (i j : Nat) (P : List Bool) :
    ∀ (l : List (Nat × AlgorithmStep)) (st : Option NodeStatus),
      (∀ ks ∈ l, ¬ks.1 = j) →
      (∀ ks ∈ l.dropLast, ¬ks.1 = i) →
      (l.foldl (stepStatus i P) st = some NodeStatus.pruned ∨
       l.foldl (stepStatus i P) st = some NodeStatus.solution) →
      l.foldl (stepStatus j P) st = l.foldl (stepStatus i P) st := by
  intro l
  induction l with
  | nil =>
    intro st _ _ _
    rfl
  | cons ks l ih =>
    intro st hj hi hres
    cases l with
    | nil =>
      rw [List.foldl_cons, List.foldl_nil] at hres ⊢
      rw [List.foldl_cons, List.foldl_nil]
      exact stepStatus_transfer i j P st ks (hj ks (List.mem_cons_self _ _)) hres
    | cons b l2 =>
      rw [List.foldl_cons] at hres ⊢
      rw [List.foldl_cons]
      have hdl : (ks :: b :: l2).dropLast = ks :: (b :: l2).dropLast := rfl
      have hki : ¬ks.1 = i := hi ks (by rw [hdl]; exact List.mem_cons_self _ _)
      have hkj : ¬ks.1 = j := hj ks (List.mem_cons_self _ _)
      rw [stepStatus_cursor_irrel j i P st ks hkj hki]
      exact ih (stepStatus i P st ks)
        (fun a ha => hj a (List.mem_cons_of_mem _ ha))
        (fun a ha => hi a (by rw [hdl]; exact List.mem_cons_of_mem _ ha))
        hres

theorem enumFrom_take {α : Type _} (l : List α) :
    ∀ (n k : Nat), (List.enumFrom k l).take n = List.enumFrom k (l.take n) := by
  induction l with
  | nil =>
    intro n k
    simp [List.enumFrom]
  | cons a l ih =>
    intro n k
    cases n with
    | zero => simp
    | succ n => simp [List.enumFrom, ih n (k + 1)]

theorem enumFrom_drop {α : Type _} (l : List α) :
    ∀ (n k : Nat), (List.enumFrom k l).drop n = List.enumFrom (k + n) (l.drop n) := by
  induction l with
  | nil =>
    intro n k
    simp [List.enumFrom]
  | cons a l ih =>
    intro n k
    cases n with
    | zero => simp
    | succ n =>
      have harith : k + 1 + n = k + (n + 1) := by omega
      simp [List.enumFrom, ih n (k + 1), harith]

theorem enumFrom_dropLast {α : Type _} (l : List α) :
    ∀ k : Nat, (List.enumFrom k l).dropLast = List.enumFrom k l.dropLast := by
  induction l with
  | nil =>
    intro k
    simp [List.enumFrom]
  | cons a l ih =>
    intro k
    cases l with
    | nil => simp [List.enumFrom]
    | cons b l2 =>
      have h1 : List.enumFrom k (a :: b :: l2) =
          (k, a) :: List.enumFrom (k + 1) (b :: l2) := rfl
      have h2 : (a :: b :: l2).dropLast = a :: (b :: l2).dropLast := rfl
      have h3 : List.enumFrom (k + 1) (b :: l2) =
          (k + 1, b) :: List.enumFrom (k + 2) l2 := rfl
      rw [h1, h2, h3, List.dropLast_cons₂, ← h3, ih (k + 1)]
      rfl

theorem mem_enumFrom_lt {α : Type _} (l : List α) :
    ∀ (k : Nat) (ks : Nat × α), ks ∈ List.enumFrom k l →
      k ≤ ks.1 ∧ ks.1 < k + l.length := by
  induction l with
  | nil =>
    intro k ks h
    simp [List.enumFrom] at h
  | cons a l ih =>
    intro k ks h
    rcases List.mem_cons.mp h with rfl | h2
    · simp
    · have := ih (k + 1) ks h2
      constructor <;> [omega; (simp only [List.length_cons]; omega)]

theorem mem_enumFrom_get {α : Type _} (l : List α) :
    ∀ (k : Nat) (ks : Nat × α), ks ∈ List.enumFrom k l →
      l[ks.1 - k]? = some ks.2 := by
  induction l with
  | nil =>
    intro k ks h
    simp [List.enumFrom] at h
  | cons a l ih =>
    intro k ks h
    rcases List.mem_cons.mp h with rfl | h2
    · simp
    · have hb := (mem_enumFrom_lt l (k + 1) ks h2).1
      have harith : ks.1 - k = (ks.1 - (k + 1)) + 1 := by omega
      rw [harith, List.getElem?_cons_succ]
      exact ih (k + 1) ks h2

theorem mem_of_getLast_opt {α : Type _} (l : List α) :
    ∀ a : α, l.getLast? = some a → a ∈ l := by
  induction l with
  | nil =>
    intro a h
    exact Option.noConfusion h
  | cons x l ih =>
    intro a h
    cases l with
    | nil =>
      cases h
      exact List.mem_singleton.mpr rfl
    | cons y l2 =>
      rw [List.getLast?_cons_cons] at h
      exact List.mem_cons_of_mem _ (ih a h)

/-- Terminal node classifications persist as the cursor advances: once a
node is `pruned` or `solution` at a cursor, at any larger cursor it is
still `pruned` or `solution` — never `visited` or `pending` — except that
it reads `active` when the step at the larger cursor is itself a step at
that node. -/
theorem statusAt_persists (steps : List AlgorithmStep) (P : List Bool) (i j : Nat)
    (hij : i < j)
    (hstat : statusAt steps i P = some NodeStatus.pruned ∨
             statusAt steps i P = some NodeStatus.solution) :
    statusAt steps j P = some NodeStatus.pruned ∨
    statusAt steps j P = some NodeStatus.solution ∨
    (statusAt steps j P = some NodeStatus.active ∧
      ∃ s, steps[j]? = some s ∧ s.path = P) := by
  rw [statusAt_eq] at hstat ⊢
  have henum : List.enum (steps.take (j + 1)) = List.enumFrom 0 (steps.take (j + 1)) := rfl
  have henumi : List.enum (steps.take (i + 1)) = List.enumFrom 0 (steps.take (i + 1)) := rfl
  have hsplit : (steps.take (j + 1)).enum =
      ((steps.take (j + 1)).enum).take (i + 1) ++ ((steps.take (j + 1)).enum).drop (i + 1) :=
    (List.take_append_drop _ _).symm
  have htake : ((steps.take (j + 1)).enum).take (i + 1) = (steps.take (i + 1)).enum := by
    rw [henum, henumi, enumFrom_take, List.take_take]
    congr 2
    omega
  have hdrop : ((steps.take (j + 1)).enum).drop (i + 1) =
      List.enumFrom (i + 1) ((steps.take (j + 1)).drop (i + 1)) := by
    rw [henum, enumFrom_drop, Nat.zero_add]
  have hpre : ((steps.take (i + 1)).enum).foldl (stepStatus j P)
        (if P = [] then some NodeStatus.pending else none) =
      ((steps.take (i + 1)).enum).foldl (stepStatus i P)
        (if P = [] then some NodeStatus.pending else none) := by
    apply foldl_transfer
    · intro ks hks
      rw [henumi] at hks
      have := (mem_enumFrom_lt _ 0 ks hks).2
      have hlen : (steps.take (i + 1)).length ≤ i + 1 := List.length_take_le _ _
      omega
    · intro ks hks
      rw [henumi, enumFrom_dropLast] at hks
      have := (mem_enumFrom_lt _ 0 ks hks).2
      have hlen : (steps.take (i + 1)).dropLast.length ≤ i := by
        rw [List.length_dropLast]
        have := List.length_take_le (i + 1) steps
        omega
      omega
    · exact hstat
  rw [hsplit, List.foldl_append, htake, hpre]
  have hlast := foldl_stepStatus_last j P (((steps.take (j + 1)).enum).drop (i + 1))
    (((steps.take (i + 1)).enum).foldl (stepStatus i P)
      (if P = [] then some NodeStatus.pending else none)) hstat ?hdl
  case hdl =>
    intro ks hks
    rw [hdrop, enumFrom_dropLast] at hks
    have hmem := (mem_enumFrom_lt _ (i + 1) ks hks).2
    have hlen2 : ((steps.take (j + 1)).drop (i + 1)).dropLast.length ≤ j - i - 1 := by
      rw [List.length_dropLast, List.length_drop]
      have := List.length_take_le (j + 1) steps
      omega
    omega
  rcases hlast with h | h
  · rcases h with h | h
    · exact Or.inl h
    · exact Or.inr (Or.inl h)
  · refine Or.inr (Or.inr ⟨h.1, ?_⟩)
    obtain ⟨ks, hgl, hkj, hkp⟩ := h.2
    refine ⟨ks.2, ?_, hkp⟩
    have hmem : ks ∈ ((steps.take (j + 1)).enum).drop (i + 1) := mem_of_getLast_opt _ _ hgl
    have hmem2 : ks ∈ (steps.take (j + 1)).enum := by
      have := List.take_append_drop (i + 1) ((steps.take (j + 1)).enum)
      rw [← this]
      exact List.mem_append_right _ hmem
    rw [henum] at hmem2
    have hget := mem_enumFrom_get (steps.take (j + 1)) 0 ks hmem2
    rw [Nat.sub_zero, hkj] at hget
    have hjlt : j < j + 1 := by omega
    rw [List.getElem?_take, if_pos hjlt] at hget
    exact hget

/-- C8 (amended): once a node's status is `pruned` or `solution` in the
reconstruction at some cursor, it never reverts to `visited` (or
`pending`) at a larger cursor: its status is still `pruned` or `solution`
there, except that it reads `active` when the step at the larger cursor
is itself a step at that node (as happens at the root when the cursor
reaches the terminal `COMPLETE` step). -/
theorem claim_C8 (vals : List Int) (target tol : Int) (P : List Bool) (i j : Nat)
    (hij : i < j)
    (hstat : statusAt (generateScenario vals target tol).steps i P = some NodeStatus.pruned ∨
             statusAt (generateScenario vals target tol).steps i P = some NodeStatus.solution) :
    statusAt (generateScenario vals target tol).steps j P = some NodeStatus.pruned ∨
    statusAt (generateScenario vals target tol).steps j P = some NodeStatus.solution ∨
    (statusAt (generateScenario vals target tol).steps j P = some NodeStatus.active ∧
      ∃ s, (generateScenario vals target tol).steps[j]? = some s ∧ s.path = P) :=
  statusAt_persists (generateScenario vals target tol).steps P i j hij hstat

theorem claim_C8_witness :
    statusAt (generateScenario [10, 10] 25 0).steps 1 [] = some NodeStatus.pruned ∨
    statusAt (generateScenario [10, 10] 25 0).steps 1 [] = some NodeStatus.solution ∨
    (statusAt (generateScenario [10, 10] 25 0).steps 1 [] = some NodeStatus.active ∧
      ∃ s, (generateScenario [10, 10] 25 0).steps[(1 : Nat)]? = some s ∧ s.path = []) :=
  claim_C8 [10, 10] 25 0 [] 0 1 (by decide) (Or.inl (by decide))

/-- C8 (counterexample): for `values = [10,10]`, `target = 25`, the root
node is `pruned` in the reconstruction for cursor 0 (the `PRUNE_SUM` step)
but `active` — not `pruned` — in the reconstruction for cursor 1, because
the cursor override marks the node touched by the cursor step (the
terminal `COMPLETE`, also at the root path) as `active`. -/
theorem claim_C8_cex :
    statusAt (generateScenario [10, 10] 25 0).steps 0 [] = some NodeStatus.pruned ∧
    statusAt (generateScenario [10, 10] 25 0).steps 1 [] = some NodeStatus.active := by
  decide

/-- C5 (counterexample): for `values = [60,50,25]`, `target = 110`, the
trace contains no `SOLUTION` step at path `[true,true,false]`; the single
candidate is recorded at path `[true,true]` (the solution test fires at
the node reached after including 60 and 50, before any further descent),
so the claimed candidate path is wrong. -/
theorem claim_C5_cex :
    ((generateScenario [60, 50, 25] 110 0).steps.countP solutionAtTTF = 0) ∧
    (generateScenario [60, 50, 25] 110 0).candidates =
      [{ path := [true, true], stepIndex := 2, value := 110 }] := by
  decide

/-- C5 (amended): for `values = [60,50,25]`, `target = 110` (tolerance 0),
the trace contains a `SOLUTION` step at path `[true,true]` (60+50 = 110,
at trace index 2), and the search then explores the `[true,false,...]`
subtree (steps 3–4) and the `[false,...]` subtree (steps 5–6) before the
final `COMPLETE` step (index 7, of 8 steps total). -/
theorem claim_C5 :
    stepTypeAt (generateScenario [60, 50, 25] 110 0) 2 = some .SOLUTION ∧
    stepPathAt (generateScenario [60, 50, 25] 110 0) 2 = some [true, true] ∧
    stepPathAt (generateScenario [60, 50, 25] 110 0) 3 = some [true, false] ∧
    stepPathAt (generateScenario [60, 50, 25] 110 0) 4 = some [true, false] ∧
    stepPathAt (generateScenario [60, 50, 25] 110 0) 5 = some [false] ∧
    stepPathAt (generateScenario [60, 50, 25] 110 0) 6 = some [false] ∧
    stepTypeAt (generateScenario [60, 50, 25] 110 0) 7 = some .COMPLETE ∧
    (generateScenario [60, 50, 25] 110 0).steps.length = 8 := by
  decide

/-- C3 (counterexample): for `values = [10]`, `target = 5`, tolerance 0,
the step at index 0 is an `INCLUDE` step whose node (path `[true]`,
`currentSum = 10`, next value index 1, `remainingValue = 0`) satisfies the
overshoot prune condition `currentSum > target + tolerance`
(`10 > 5 + 0`), so an `INCLUDE` step is recorded at a node at which a
prune condition already holds. -/
theorem claim_C3_cex :
    stepAt (generateScenario [10] 5 0) 0 =
      some { stepId := 0, type := .INCLUDE, depth := 0, utxoIndex := 0
             currentSelection := [0], currentSum := 10, remainingValue := 0
             path := [true] } ∧
    (10 : Int) > 5 + 0 := by
  decide

/-- C10 (counterexample): for the negative value list `[-5]` (target 10,
tolerance 0), `generateScenario` does not signal any error: it runs the
search and returns a `Scenario` with two recorded steps (a `PRUNE_SUM` at
the root and the terminal `COMPLETE`), contradicting the claim that no
steps are recorded and no `Scenario` is produced. -/
theorem claim_C10_cex :
    (generateScenario [-5] 10 0).steps.length = 2 ∧
    stepTypeAt (generateScenario [-5] 10 0) 0 = some .PRUNE_SUM ∧
    stepTypeAt (generateScenario [-5] 10 0) 1 = some .COMPLETE := by
  decide

end BnB
